import Mathlib

/-!
Verification of the haddock3 job-execution core against its source.

The development embeds, as executable Lean definitions:
* the `flexref` module (`src/haddock/modules/refinement/flexref/__init__.py`):
  `generate_flexref` and `HaddockModule.run`;
* the YAML flattening function `flat_yaml_cfg`
  (`src/haddock/gear/yaml2cfg.py`);
* the distributed (MPI) scheduler round trip exercised by
  `integration_tests/test_mpi.py`; the scheduler and worker themselves are
  not part of the sources, so they are modelled from the specification and
  marked as such.

Filesystems are embedded as explicit maps over paths; the external CNS
engine is an opaque filesystem transformer handed to the module, exactly as
the code observes it (it returns no value; only file effects are visible).
-/

/-! ## Decimal rendering of naturals (Python `str(int)` / f-string `{idx}`) -/

/-- The character for a single decimal digit, as produced by Python's
decimal formatting of nonnegative integers. -/
def digitChar10 (d : Nat) : Char := Char.ofNat (48 + d)

/-- Fuel-driven big-endian decimal digit list of `n`; with fuel `n + 1`
this computes the digits of `n` (structurally recursive so that concrete
instances evaluate by `decide`). -/
def natDigits : Nat → Nat → List Char
  | 0, _ => []
  | fuel + 1, n =>
    if n < 10 then [digitChar10 n]
    else natDigits fuel (n / 10) ++ [digitChar10 (n % 10)]

/-- Decimal string of a natural number, as Python's `str`/f-strings render
a nonnegative `int` (`natStr 0 = "0"`, `natStr 17 = "17"`). -/
def natStr (n : Nat) : String := ⟨natDigits (n + 1) n⟩

/-! ## Paths and filesystems -/

/-- A filesystem path as built by `pathlib`'s `step_path / name`: a
directory part and a final component (`Path.name` in Python is `base`
here). -/
structure FsPath where
  dir : String
  base : String
deriving DecidableEq

/-- Existence-level view of the filesystem: which paths currently exist.
The CNS engine and the module only ever test existence (`Path.exists`). -/
abbrev FS := FsPath → Bool

/-! ## flexref data model (haddock.ontology as used by the module) -/

/-- Members of `haddock.ontology.Format` used by the module. -/
inductive Format where
  | pdb
  | psf
  | other
deriving DecidableEq

/-- A topology (`.psf`) file record attached to a model. -/
structure TopologyFile where
  path : String
  file_name : String
deriving DecidableEq

/-- An input model from `previous_io.output`: the fields of
`haddock.ontology.PDBFile` read by `HaddockModule.run` and
`generate_flexref` (`path`, `file_name`, `file_type`, `topology`). -/
structure PDBFileIn where
  path : String
  file_name : String
  file_type : Format
  topology : List TopologyFile
deriving DecidableEq

/-- An output record as built at line 105-106 of the module:
`PDBFile(model, path=self.path)` with `topology` copied from the first
input model. -/
structure PDBFileOut where
  file : FsPath
  path : String
  topology : List TopologyFile
deriving DecidableEq

/-- Embeds `haddock.cns.engine.CNSJob(inp_file, out_file, cns_folder=...)` as
constructed at line 89: the input script and the log file. -/
structure CNSJob where
  input_file : FsPath
  output_file : FsPath
deriving DecidableEq

/-! ## Templating collaborators (not under src) -/

/-- Modelled from the spec: `haddock.cns.util.load_workflow_params` is an
input-templating collaborator outside the execution core ("generation of
computation-engine input scripts ... treated as external collaborators");
it turns the defaults into script text. Its content is opaque to the
engine. -/
def load_workflow_params (defaults : String) : String :=
  "!params " ++ defaults

/-- Modelled from the spec: the header strings returned by
`haddock.cns.util.generate_default_header` (param, top, link,
topology_protonation, trans_vec, tensor, scatter, axis, water_box);
opaque script text. -/
structure DefaultHeader where
  param : String := ""
  top : String := ""
  link : String := ""
  topology_protonation : String := ""
  trans_vec : String := ""
  tensor : String := ""
  scatter : String := ""
  axis : String := ""
  water_box : String := ""

/-- Modelled from the spec: `generate_default_header` collaborator. -/
def generate_default_header : DefaultHeader := {}

/-- Modelled from the spec: `haddock.cns.util.prepare_multiple_input`
renders the pdb/psf path lists into script text. -/
def prepare_multiple_input (pdbs psfs : List FsPath) : String :=
  "!input " ++ String.intercalate " " (pdbs.map FsPath.base)
    ++ " " ++ String.intercalate " " (psfs.map FsPath.base)

/-- Modelled from the spec: `haddock.cns.util.load_ambig` renders the
ambiguous-restraints file into script text. -/
def load_ambig (ambig : String) : String := "!ambig " ++ ambig

/-! ## generate_flexref (source lines 14-51) -/

/-- Embeds `generate_flexref(identifier, input_file, step_path, recipe_str,
defaults, ambig=None)`: builds the `.inp` script text and writes it at
`step_path / f"flexref_{identifier}.inp"`; the script embeds the output
structure path `step_path / f"flexref_{identifier}.pdb"`. Returns the
written file's path and its content (the write itself is recorded by the
caller in the run trace). -/
def generate_flexref (identifier : Nat) (input_file : PDBFileIn)
    (step_path : String) (recipe_str : String) (defaults : String)
    (ambig : Option String) : FsPath × String :=
  let default_params := load_workflow_params defaults
  let hdr := generate_default_header
  let pdb : FsPath := ⟨input_file.path, input_file.file_name⟩
  let psf_list : List FsPath :=
    input_file.topology.map (fun psf => ⟨psf.path, psf.file_name⟩)
  let input_str := prepare_multiple_input [pdb] psf_list
  let ambig_str := match ambig with
    | some a => load_ambig a
    | none => ""
  let output_pdb_filename : FsPath :=
    ⟨step_path, "flexref_" ++ natStr identifier ++ ".pdb"⟩
  let output := "\n! Output structure\n"
    ++ "eval ($output_pdb_filename= \"" ++ output_pdb_filename.dir ++ "/"
    ++ output_pdb_filename.base ++ "\")\n"
  let inp := default_params ++ hdr.param ++ hdr.top ++ input_str ++ output
    ++ hdr.topology_protonation ++ ambig_str ++ recipe_str
  let inp_file : FsPath := ⟨step_path, "flexref_" ++ natStr identifier ++ ".inp"⟩
  (inp_file, inp)

/-! ## HaddockModule.run (source lines 62-116) -/

/-- Outcome of a `flexref` run.
  * `indexError`: `models_to_refine[0]` raised on an empty model list
    (line 71);
  * `missingError`: `finish_with_error` was reached (lines 108-110),
    carrying the aggregated `not_found` names.  Modelled from the spec:
    `BaseHaddockModule.finish_with_error` is not under src; per the spec's
    error taxonomy it terminates the stage, so no statement after it runs;
  * `ok`: the run completed and `io.save` persisted the `expected`
    records. -/
inductive RunOutcome where
  | indexError
  | missingError (not_found : List String)
  | ok (expected : List PDBFileOut)
deriving DecidableEq

/-- Everything observable about one execution of `HaddockModule.run`:
the jobs handed to the CNS engine, the pre-declared structure files, the
filesystem in which the post-engine check ran, the outcome, and the
chronological list of paths the module itself wrote (`.inp` scripts and,
on success, `io.json`). -/
structure ModuleTrace where
  jobs : List CNSJob
  refined_structure_list : List FsPath
  fsAfter : FS
  outcome : RunOutcome
  writes : List FsPath

/-- Body of `HaddockModule.run` for a nonempty `models_to_refine`
(`first_model :: rest`), translated line by line.  The `if` mirrors
lines 108-116: when `not_found` is nonempty the run ends in
`finish_with_error` (so `io.json` is not written); otherwise `io.save`
writes the module record. -/
def runBody (first_model : PDBFileIn) (rest : List PDBFileIn)
    (step_path : String) (recipe_str : String) (defaults : String)
    (ambig : Option String) (engine : List CNSJob → FS → FS) (fs0 : FS) :
    ModuleTrace :=
  let models := first_model :: rest
  let topologies := first_model.topology
  let perIdx := models.enum.map (fun im =>
    let inp := generate_flexref im.1 im.2 step_path recipe_str defaults ambig
    let out_file : FsPath := ⟨step_path, "flexref_" ++ natStr im.1 ++ ".out"⟩
    let structure_file : FsPath := ⟨step_path, "flexref_" ++ natStr im.1 ++ ".pdb"⟩
    (inp, out_file, structure_file))
  let jobs := perIdx.map (fun x => CNSJob.mk x.1.1 x.2.1)
  let refined_structure_list := perIdx.map (fun x => x.2.2)
  let inpWrites := perIdx.map (fun x => x.1.1)
  let fs1 : FS := fun p => fs0 p || inpWrites.contains p
  let fs2 := engine jobs fs1
  let not_found := (refined_structure_list.filter (fun m => !(fs2 m))).map FsPath.base
  let expected := refined_structure_list.map
    (fun m => PDBFileOut.mk m step_path topologies)
  { jobs := jobs
    refined_structure_list := refined_structure_list
    fsAfter := fs2
    outcome := if not_found.isEmpty then .ok expected else .missingError not_found
    writes := if not_found.isEmpty then inpWrites ++ [⟨step_path, "io.json"⟩]
      else inpWrites }

/-- Embeds `HaddockModule.run` (source lines 62-116).  `engine` is the CNS engine
run (lines 95-96): an opaque effect on the filesystem that receives the
job list and returns nothing but its file effects — the classification
that follows (lines 99-110) can only consult file existence. -/
def HaddockModule.run (prev_output : List PDBFileIn) (step_path : String)
    (recipe_str : String) (defaults : String) (ambig : Option String)
    (engine : List CNSJob → FS → FS) (fs0 : FS) : ModuleTrace :=
  match prev_output.filter (fun p => p.file_type == Format.pdb) with
  | [] =>
    { jobs := [], refined_structure_list := [], fsAfter := fs0,
      outcome := .indexError, writes := [] }
  | first_model :: rest =>
    runBody first_model rest step_path recipe_str defaults ambig engine fs0

/-- The `not_found` list as visible in the outcome. -/
def notFoundOf (t : ModuleTrace) : List String :=
  match t.outcome with
  | .missingError l => l
  | _ => []

/-! ## Pure per-index path functions (claim C4's task→file mapping) -/

/-- Input script path of task `i`: `step_path / f"flexref_{i}.inp"`. -/
def flexrefInp (step_path : String) (i : Nat) : FsPath :=
  ⟨step_path, "flexref_" ++ natStr i ++ ".inp"⟩

/-- Log path of task `i`: `step_path / f"flexref_{i}.out"`. -/
def flexrefOut (step_path : String) (i : Nat) : FsPath :=
  ⟨step_path, "flexref_" ++ natStr i ++ ".out"⟩

/-- Output structure path of task `i`: `step_path / f"flexref_{i}.pdb"`. -/
def flexrefPdb (step_path : String) (i : Nat) : FsPath :=
  ⟨step_path, "flexref_" ++ natStr i ++ ".pdb"⟩

/-- A two-model batch used to exercise partial failure. -/
def demoPrev : List PDBFileIn :=
  [PDBFileIn.mk "prev" "m0.pdb" Format.pdb [],
    PDBFileIn.mk "prev" "m1.pdb" Format.pdb []]

/-- An engine run that produces only task 0's output structure. -/
def demoEnginePartial : List CNSJob → FS → FS :=
  fun _ fs => fun p => if p = flexrefPdb "step" 0 then true else fs p

/-! ## YAML configuration flattening (src/haddock/gear/yaml2cfg.py) -/

/-- A YAML value as handled by `flat_yaml_cfg`: scalars, sequences, and
mappings (Python dicts, embedded as ordered association lists — YAML keys
are unique). -/
inductive YVal where
  | str : String → YVal
  | boolean : Bool → YVal
  | num : Int → YVal
  | arr : List YVal → YVal
  | dict : List (String × YVal) → YVal

/-- Python `values[key]` on a dict: first (only) binding of `key`. -/
def ylookup (key : String) : List (String × YVal) → Option YVal
  | [] => none
  | (k, v) :: rest => if k = key then some v else ylookup key rest

/-- Python `key in values`. -/
def yhasKey (key : String) (m : List (String × YVal)) : Bool :=
  (ylookup key m).isSome

/-- Whether a value is a mapping (subscripting a non-mapping with a string
key raises `TypeError` in Python). -/
def YVal.isDict : YVal → Bool
  | .dict _ => true
  | _ => false

/-- Embeds `flat_yaml_cfg` (yaml2cfg.py lines 193-215).  Per parameter:
`values["default"]` succeeding maps the parameter to the default value —
raising `ConfigurationError` first when `"explevel"` is absent; `KeyError`
(mapping without `"default"`) recurses; `TypeError` (non-mapping value)
skips the parameter. -/
def flat_yaml_cfg : List (String × YVal) → Except String (List (String × YVal))
  | [] => .ok []
  | (param, YVal.dict m) :: rest =>
    match ylookup "default" m with
    | some d =>
      if yhasKey "explevel" m then
        match flat_yaml_cfg rest with
        | .ok out => .ok ((param, d) :: out)
        | .error e => .error e
      else .error ("explevel not defined for: " ++ param)
    | none =>
      match flat_yaml_cfg m with
      | .ok sub =>
        match flat_yaml_cfg rest with
        | .ok out => .ok ((param, YVal.dict sub) :: out)
        | .error e => .error e
      | .error e => .error e
  | (_, _) :: rest => flat_yaml_cfg rest

/-- The error condition of `flat_yaml_cfg` over the parameters it visits:
some visited parameter's mapping contains `"default"` but lacks
`"explevel"` (sub-mappings of a defaulted parameter are metadata, never
visited). -/
def hasBadParam : List (String × YVal) → Bool
  | [] => false
  | (_, YVal.dict m) :: rest =>
    match ylookup "default" m with
    | some _ => !(yhasKey "explevel" m) || hasBadParam rest
    | none => hasBadParam m || hasBadParam rest
  | (_, _) :: rest => hasBadParam rest

/-! ## Distributed execution (MPIScheduler / cli_mpi) -/

/-- Modelled from the spec: the `WorkerSlice` of a rank.
`haddock.libs.libmpi` is not under src; per the spec a worker "computes
its WorkerSlice deterministically (e.g., indices where
`i mod world_size == rank`)" — a pure function of
(rank, world_size, batch_length). -/
def workerSlice (rank world n : Nat) : List Nat :=
  (List.range n).filter (fun i => i % world == rank)

/-- Shared storage carrying file contents (`none` = the path is absent). -/
abbrev FileStore := FsPath → Option (List Nat)

/-- The `Task` class of `integration_tests/test_mpi.py` (lines 14-21): a
unit of work that creates `output_fname` when run. -/
structure MpiTask where
  output_fname : FsPath
deriving DecidableEq

/-- Embeds `Task.run` of test_mpi.py (lines 20-21): `self.output_fname.touch()`. -/
def MpiTask.run (t : MpiTask) (fs : FileStore) : FileStore :=
  fun p => if p = t.output_fname then some [] else fs p

/-- Modelled from the spec: the batch-record codec (`pickle` in the
sources).  "Batch record: a single serialized container holding the
ordered MpiTask list; internal schema, no cross-version compatibility
guarantee."  Strings are length-prefixed character codes. -/
def encodeString (s : String) : List Nat :=
  s.length :: s.data.map Char.toNat

/-- Modelled from the spec: record entry for one task. -/
def encodeTask (t : MpiTask) : List Nat :=
  encodeString t.output_fname.dir ++ encodeString t.output_fname.base

/-- Modelled from the spec: the serialized batch record — the ordered task
list behind a count header. -/
def serializeTasks (ts : List MpiTask) : List Nat :=
  ts.length :: ts.foldr (fun t acc => encodeTask t ++ acc) []

/-- Modelled from the spec: decoder for a length-prefixed string. -/
def decodeString : List Nat → Option (String × List Nat)
  | [] => none
  | len :: rest =>
    if len ≤ rest.length then
      some (⟨(rest.take len).map Char.ofNat⟩, rest.drop len)
    else none

/-- Modelled from the spec: decoder for one task record entry. -/
def decodeTask (l : List Nat) : Option (MpiTask × List Nat) :=
  match decodeString l with
  | none => none
  | some (d, l₁) =>
    match decodeString l₁ with
    | none => none
    | some (b, l₂) => some (⟨⟨d, b⟩⟩, l₂)

/-- Modelled from the spec: decode `k` consecutive task entries. -/
def decodeTasksAux : Nat → List Nat → Option (List MpiTask)
  | 0, _ => some []
  | k + 1, l =>
    match decodeTask l with
    | none => none
    | some (t, l') =>
      match decodeTasksAux k l' with
      | none => none
      | some ts => some (t :: ts)

/-- Modelled from the spec: load the batch record. -/
def decodeTasks : List Nat → Option (List MpiTask)
  | [] => none
  | k :: rest => decodeTasksAux k rest

/-- Modelled from the spec: `haddock.libs.libmpi.MPIScheduler` (not under
src) — holds the ordered task batch, the requested core count, and a
working directory (test_mpi.py lines 50-52). -/
structure MPIScheduler where
  tasks : List MpiTask
  ncores : Nat
  cwd : String

/-- Modelled from the spec: `MPIScheduler._pickle_tasks` serializes the
entire batch into the single record `mpi.pkl` under the scheduler's cwd
(test_mpi.py lines 53-57: the file exists and is non-empty afterwards). -/
def MPIScheduler.pickle_tasks (s : MPIScheduler) (fs : FileStore) : FileStore :=
  fun p => if p = ⟨s.cwd, "mpi.pkl"⟩ then some (serializeTasks s.tasks) else fs p

/-- Modelled from the spec: the worker entry point (`cli_mpi.main`),
"invoked as `<worker> <path-to-batch-record>`"; it takes only the record
path (rank and world size come from the launcher's environment), loads the
record, computes its slice, runs each assigned task in order, and reports
nothing through its return — only file effects are produced. -/
def cli_mpi_main (record : FsPath) (rank world : Nat) (fs : FileStore) :
    FileStore :=
  match fs record with
  | none => fs
  | some bytes =>
    match decodeTasks bytes with
    | none => fs
    | some ts =>
      (workerSlice rank world ts.length).foldl
        (fun f i =>
          match ts[i]? with
          | some t => t.run f
          | none => f) fs

/-- Modelled from the spec: the scheduler's protocol — serialize the batch
first, then launch `ncores` ranks over the shared store. -/
def MPIScheduler.run (s : MPIScheduler) (fs : FileStore) : FileStore :=
  (List.range s.ncores).foldl
    (fun f r => cli_mpi_main ⟨s.cwd, "mpi.pkl"⟩ r s.ncores f)
    (s.pickle_tasks fs)

/-! ## Theorems -/

theorem digitChar10_inj_lt (a b : Nat) (ha : a < 10) (hb : b < 10)
    (h : digitChar10 a = digitChar10 b) : a = b := by
  have key : ∀ x y : Fin 10, digitChar10 x.val = digitChar10 y.val → x = y := by decide
  have := key ⟨a, ha⟩ ⟨b, hb⟩ h
  exact congrArg Fin.val this

theorem map_digitChar10_inj (l₁ l₂ : List Nat)
    (h₁ : ∀ d ∈ l₁, d < 10) (h₂ : ∀ d ∈ l₂, d < 10)
    (h : l₁.map digitChar10 = l₂.map digitChar10) : l₁ = l₂ := by
  induction l₁ generalizing l₂ with
  | nil => cases l₂ with
    | nil => rfl
    | cons b t => simp at h
  | cons a t ih =>
    cases l₂ with
    | nil => simp at h
    | cons b t' =>
      simp only [List.map_cons, List.cons.injEq] at h
      have hab : a = b := digitChar10_inj_lt a b
        (h₁ a (List.mem_cons_self a t)) (h₂ b (List.mem_cons_self b t')) h.1
      have ht : t = t' := ih t' (fun d hd => h₁ d (List.mem_cons_of_mem _ hd))
        (fun d hd => h₂ d (List.mem_cons_of_mem _ hd)) h.2
      rw [hab, ht]

/-- For positive `n` (and enough fuel), `natDigits` produces exactly the
reversed little-endian digits of `n` rendered as characters. -/
theorem natDigits_eq_digits (fuel n : Nat) (hf : n < fuel) (hn : 0 < n) :
    natDigits fuel n = ((Nat.digits 10 n).map digitChar10).reverse := by
  induction fuel generalizing n with
  | zero => omega
  | succ fuel ih =>
    by_cases h10 : n < 10
    · have hdig : Nat.digits 10 n = [n] := by
        rw [Nat.digits_def' (by norm_num : 1 < 10) hn]
        have : n % 10 = n := Nat.mod_eq_of_lt h10
        have hdiv : n / 10 = 0 := Nat.div_eq_of_lt h10
        rw [this, hdiv]
        simp
      simp [natDigits, h10, hdig]
    · have hq : 0 < n / 10 := by
        have : 10 ≤ n := Nat.le_of_not_lt h10
        exact Nat.div_pos this (by norm_num)
      have hqf : n / 10 < fuel := by
        have : n / 10 < n := Nat.div_lt_self hn (by norm_num)
        omega
      have hdig : Nat.digits 10 n = n % 10 :: Nat.digits 10 (n / 10) :=
        Nat.digits_def' (by norm_num : 1 < 10) hn
      simp only [natDigits, if_neg h10, ih (n / 10) hqf hq, hdig,
        List.map_cons, List.reverse_cons]

theorem natStr_injective : Function.Injective natStr := by
  intro m n h
  have hdata : natDigits (m + 1) m = natDigits (n + 1) n := congrArg String.data h
  rcases Nat.eq_zero_or_pos m with hm | hm
  · rcases Nat.eq_zero_or_pos n with hn | hn
    · omega
    · exfalso
      subst hm
      rw [natDigits_eq_digits (n + 1) n (by omega) hn] at hdata
      have h0 : natDigits 1 0 = [digitChar10 0] := by decide
      rw [h0] at hdata
      have hlen := congrArg List.length hdata
      simp only [List.length_reverse, List.length_map, List.length_singleton] at hlen
      obtain ⟨d, hd⟩ : ∃ d, Nat.digits 10 n = [d] := by
        cases hds : Nat.digits 10 n with
        | nil => rw [hds] at hlen; simp at hlen
        | cons a t =>
          rw [hds] at hlen
          cases t with
          | nil => exact ⟨a, rfl⟩
          | cons b t' => simp at hlen
      rw [hd] at hdata
      simp only [List.map_cons, List.map_nil, List.reverse_singleton,
        List.cons.injEq] at hdata
      have hdlt : d < 10 :=
        Nat.digits_lt_base (by norm_num) (by rw [hd]; exact List.mem_singleton_self d)
      have : (0 : Nat) = d := digitChar10_inj_lt 0 d (by norm_num) hdlt hdata.1
      have hn0 : n = Nat.ofDigits 10 (Nat.digits 10 n) := (Nat.ofDigits_digits 10 n).symm
      rw [hd, ← this] at hn0
      simp [Nat.ofDigits] at hn0
      omega
  · rcases Nat.eq_zero_or_pos n with hn | hn
    · exfalso
      subst hn
      rw [natDigits_eq_digits (m + 1) m (by omega) hm] at hdata
      have h0 : natDigits 1 0 = [digitChar10 0] := by decide
      rw [h0] at hdata
      have hlen := congrArg List.length hdata
      simp only [List.length_reverse, List.length_map, List.length_singleton] at hlen
      obtain ⟨d, hd⟩ : ∃ d, Nat.digits 10 m = [d] := by
        cases hds : Nat.digits 10 m with
        | nil => rw [hds] at hlen; simp at hlen
        | cons a t =>
          rw [hds] at hlen
          cases t with
          | nil => exact ⟨a, rfl⟩
          | cons b t' => simp at hlen
      rw [hd] at hdata
      simp only [List.map_cons, List.map_nil, List.reverse_singleton,
        List.cons.injEq] at hdata
      have hdlt : d < 10 :=
        Nat.digits_lt_base (by norm_num) (by rw [hd]; exact List.mem_singleton_self d)
      have : d = (0 : Nat) := digitChar10_inj_lt d 0 hdlt (by norm_num) hdata.1
      have hm0 : m = Nat.ofDigits 10 (Nat.digits 10 m) := (Nat.ofDigits_digits 10 m).symm
      rw [hd, this] at hm0
      simp [Nat.ofDigits] at hm0
      omega
    · rw [natDigits_eq_digits (m + 1) m (by omega) hm,
        natDigits_eq_digits (n + 1) n (by omega) hn] at hdata
      have hmap := List.reverse_injective hdata
      have hdigs := map_digitChar10_inj _ _
        (fun d hd => Nat.digits_lt_base (by norm_num) hd)
        (fun d hd => Nat.digits_lt_base (by norm_num) hd) hmap
      exact Nat.digits.injective 10 hdigs

theorem flexref_name_inj (pre suf : String) (i j : Nat)
    (h : pre ++ natStr i ++ suf = pre ++ natStr j ++ suf) : i = j := by
  have hd := congrArg String.data h
  simp only [String.data_append] at hd
  have hd' : pre.data ++ ((natStr i).data ++ suf.data) =
      pre.data ++ ((natStr j).data ++ suf.data) := by
    simpa [List.append_assoc] using hd
  have h2 : (natStr i).data = (natStr j).data :=
    List.append_cancel_right (List.append_cancel_left hd')
  exact natStr_injective (String.ext h2)

theorem flexrefPdb_injective (sp : String) (i j : Nat)
    (h : flexrefPdb sp i = flexrefPdb sp j) : i = j := by
  have hb : "flexref_" ++ natStr i ++ ".pdb" = "flexref_" ++ natStr j ++ ".pdb" :=
    congrArg FsPath.base h
  exact flexref_name_inj _ _ _ _ hb

theorem enum_map_fst_fn {α β : Type} (l : List α) (h : Nat → β) :
    l.enum.map (fun im => h im.1) = (List.range l.length).map h := by
  have : (fun im : Nat × α => h im.1) = h ∘ Prod.fst := rfl
  rw [this, ← List.map_map, List.enum_map_fst]

/-! ## Component lemmas for `runBody` -/

section RunBodyLemmas

variable (first_model : PDBFileIn) (rest : List PDBFileIn)
  (sp rs df : String) (am : Option String)
  (engine : List CNSJob → FS → FS) (fs0 : FS)

theorem runBody_jobs :
    (runBody first_model rest sp rs df am engine fs0).jobs =
      (List.range (first_model :: rest).length).map
        (fun i => CNSJob.mk (flexrefInp sp i) (flexrefOut sp i)) := by
  simp only [runBody, List.map_map]
  exact enum_map_fst_fn (first_model :: rest)
    (fun i => CNSJob.mk (flexrefInp sp i) (flexrefOut sp i))

theorem runBody_refined :
    (runBody first_model rest sp rs df am engine fs0).refined_structure_list =
      (List.range (first_model :: rest).length).map (flexrefPdb sp) := by
  simp only [runBody, List.map_map]
  exact enum_map_fst_fn (first_model :: rest) (flexrefPdb sp)

theorem runBody_inpWrites :
    ((runBody first_model rest sp rs df am engine fs0).jobs).map CNSJob.input_file =
      (List.range (first_model :: rest).length).map (flexrefInp sp) := by
  rw [runBody_jobs, List.map_map]
  rfl

theorem runBody_fsAfter :
    (runBody first_model rest sp rs df am engine fs0).fsAfter =
      engine (runBody first_model rest sp rs df am engine fs0).jobs
        (fun p => fs0 p ||
          (((runBody first_model rest sp rs df am engine fs0).jobs).map
            CNSJob.input_file).contains p) := by
  simp only [runBody, List.map_map]
  rfl

theorem runBody_outcome :
    (runBody first_model rest sp rs df am engine fs0).outcome =
      (if (((runBody first_model rest sp rs df am engine fs0).refined_structure_list).filter
            (fun m => !((runBody first_model rest sp rs df am engine fs0).fsAfter m))).map
              FsPath.base |>.isEmpty
       then .ok (((runBody first_model rest sp rs df am engine fs0).refined_structure_list).map
         (fun m => PDBFileOut.mk m sp first_model.topology))
       else .missingError
         ((((runBody first_model rest sp rs df am engine fs0).refined_structure_list).filter
            (fun m => !((runBody first_model rest sp rs df am engine fs0).fsAfter m))).map
              FsPath.base)) := by
  simp only [runBody]

theorem runBody_writes :
    (runBody first_model rest sp rs df am engine fs0).writes =
      (if (((runBody first_model rest sp rs df am engine fs0).refined_structure_list).filter
            (fun m => !((runBody first_model rest sp rs df am engine fs0).fsAfter m))).map
              FsPath.base |>.isEmpty
       then (((runBody first_model rest sp rs df am engine fs0).jobs).map CNSJob.input_file)
         ++ [⟨sp, "io.json"⟩]
       else (((runBody first_model rest sp rs df am engine fs0).jobs).map CNSJob.input_file)) := by
  simp only [runBody, List.map_map]
  rfl

end RunBodyLemmas

/-! ## Claim theorems for the flexref module -/

/-- C4: for every batch, the task at index `i` has input file
`flexref_{i}.inp`, log file `flexref_{i}.out` and output structure
`flexref_{i}.pdb` under the step path — pure functions of `i` computable
before execution — and distinct indices yield distinct output structure
paths, so no two tasks write the same path and the task→file mapping is
re-derivable from the index alone. -/
theorem flexref_task_paths (prev_output : List PDBFileIn) (sp rs df : String)
    (am : Option String) (engine : List CNSJob → FS → FS) (fs0 : FS) (i j : Nat)
    (hi : i < (prev_output.filter (fun p => p.file_type == Format.pdb)).length)
    (hij : i ≠ j) :
    (HaddockModule.run prev_output sp rs df am engine fs0).jobs[i]? =
        some (CNSJob.mk (flexrefInp sp i) (flexrefOut sp i))
    ∧ (HaddockModule.run prev_output sp rs df am engine fs0).refined_structure_list[i]? =
        some (flexrefPdb sp i)
    ∧ flexrefPdb sp i ≠ flexrefPdb sp j := by
  cases hfil : prev_output.filter (fun p => p.file_type == Format.pdb) with
  | nil => rw [hfil] at hi; simp at hi
  | cons first_model rest =>
    rw [hfil] at hi
    have hrun : HaddockModule.run prev_output sp rs df am engine fs0 =
        runBody first_model rest sp rs df am engine fs0 := by
      simp only [HaddockModule.run, hfil]
    refine ⟨?_, ?_, ?_⟩
    · rw [hrun, runBody_jobs, List.getElem?_map, List.getElem?_range hi]
      rfl
    · rw [hrun, runBody_refined, List.getElem?_map, List.getElem?_range hi]
      rfl
    · intro h
      exact hij (flexrefPdb_injective sp i j h)

/-- C4 witness: a concrete two-model batch; task 0's files are the pure
functions of index 0 and its structure path differs from task 1's. -/
theorem flexref_task_paths_witness :
    (HaddockModule.run [PDBFileIn.mk "prev" "m0.pdb" Format.pdb [],
        PDBFileIn.mk "prev" "m1.pdb" Format.pdb []] "step" "" "" none
        (fun _ fs => fs) (fun _ => false)).jobs[0]? =
      some (CNSJob.mk (flexrefInp "step" 0) (flexrefOut "step" 0))
    ∧ (HaddockModule.run [PDBFileIn.mk "prev" "m0.pdb" Format.pdb [],
        PDBFileIn.mk "prev" "m1.pdb" Format.pdb []] "step" "" "" none
        (fun _ fs => fs) (fun _ => false)).refined_structure_list[0]? =
      some (flexrefPdb "step" 0)
    ∧ flexrefPdb "step" 0 ≠ flexrefPdb "step" 1 :=
  flexref_task_paths [PDBFileIn.mk "prev" "m0.pdb" Format.pdb [],
    PDBFileIn.mk "prev" "m1.pdb" Format.pdb []] "step" "" "" none
    (fun _ fs => fs) (fun _ => false) 0 1 (by decide) (by decide)

/-- C8: the run reads the first model's topology before any guard, so when
the previous step's output holds no PDB models the run fails with an
out-of-range index access (`models_to_refine[0]`) and does not return an
empty success result. -/
theorem flexref_empty_models_index_error (prev_output : List PDBFileIn)
    (sp rs df : String) (am : Option String) (engine : List CNSJob → FS → FS)
    (fs0 : FS)
    (h : prev_output.filter (fun p => p.file_type == Format.pdb) = []) :
    (HaddockModule.run prev_output sp rs df am engine fs0).outcome =
      RunOutcome.indexError
    ∧ ∀ e, (HaddockModule.run prev_output sp rs df am engine fs0).outcome ≠
      RunOutcome.ok e := by
  have hrun : (HaddockModule.run prev_output sp rs df am engine fs0).outcome =
      RunOutcome.indexError := by
    simp only [HaddockModule.run, h]
  exact ⟨hrun, fun e he => by rw [hrun] at he; cases he⟩

/-- C8 witness: the empty previous-step output gives the index error. -/
theorem flexref_empty_models_index_error_witness :
    (HaddockModule.run [] "step" "" "" none (fun _ fs => fs)
      (fun _ => false)).outcome = RunOutcome.indexError
    ∧ ∀ e, (HaddockModule.run [] "step" "" "" none (fun _ fs => fs)
      (fun _ => false)).outcome ≠ RunOutcome.ok e :=
  flexref_empty_models_index_error [] "step" "" "" none (fun _ fs => fs)
    (fun _ => false) (by decide)

/-! ## Classification helpers -/

theorem notFound_eq_of_runBody (t : ModuleTrace) (first_model : PDBFileIn)
    (rest : List PDBFileIn) (sp rs df : String) (am : Option String)
    (engine : List CNSJob → FS → FS) (fs0 : FS)
    (ht : t = runBody first_model rest sp rs df am engine fs0) :
    notFoundOf t =
      (t.refined_structure_list.filter (fun p => !(t.fsAfter p))).map FsPath.base := by
  subst ht
  have ho := runBody_outcome first_model rest sp rs df am engine fs0
  cases hc : (((runBody first_model rest sp rs df am engine fs0).refined_structure_list.filter
      (fun m => !((runBody first_model rest sp rs df am engine fs0).fsAfter m))).map
        FsPath.base).isEmpty with
  | false =>
    rw [hc] at ho
    simp only [if_neg Bool.false_ne_true] at ho
    unfold notFoundOf
    rw [ho]
  | true =>
    rw [hc] at ho
    simp only [if_pos rfl] at ho
    unfold notFoundOf
    rw [ho]
    exact (List.isEmpty_iff.mp hc).symm

theorem ok_iff_of_runBody (t : ModuleTrace) (first_model : PDBFileIn)
    (rest : List PDBFileIn) (sp rs df : String) (am : Option String)
    (engine : List CNSJob → FS → FS) (fs0 : FS)
    (ht : t = runBody first_model rest sp rs df am engine fs0) :
    (∃ e, t.outcome = RunOutcome.ok e) ↔
      ∀ p ∈ t.refined_structure_list, t.fsAfter p = true := by
  subst ht
  have ho := runBody_outcome first_model rest sp rs df am engine fs0
  cases hc : (((runBody first_model rest sp rs df am engine fs0).refined_structure_list.filter
      (fun m => !((runBody first_model rest sp rs df am engine fs0).fsAfter m))).map
        FsPath.base).isEmpty with
  | false =>
    rw [hc] at ho
    simp only [if_neg Bool.false_ne_true] at ho
    constructor
    · intro ⟨e, he⟩
      rw [ho] at he
      cases he
    · intro hall
      exfalso
      have : ((runBody first_model rest sp rs df am engine fs0).refined_structure_list.filter
          (fun m => !((runBody first_model rest sp rs df am engine fs0).fsAfter m))) = [] := by
        rw [List.filter_eq_nil_iff]
        intro p hp
        simp [hall p hp]
      rw [this] at hc
      simp at hc
  | true =>
    rw [hc] at ho
    simp only [if_pos rfl] at ho
    constructor
    · intro _
      have hnil := List.isEmpty_iff.mp hc
      rw [List.map_eq_nil_iff, List.filter_eq_nil_iff] at hnil
      intro p hp
      have := hnil p hp
      simpa using this
    · intro _
      exact ⟨_, ho⟩

theorem missing_iff_of_runBody (t : ModuleTrace) (first_model : PDBFileIn)
    (rest : List PDBFileIn) (sp rs df : String) (am : Option String)
    (engine : List CNSJob → FS → FS) (fs0 : FS)
    (ht : t = runBody first_model rest sp rs df am engine fs0) :
    (∃ l, t.outcome = RunOutcome.missingError l) ↔
      ∃ p ∈ t.refined_structure_list, t.fsAfter p = false := by
  have hok := ok_iff_of_runBody t first_model rest sp rs df am engine fs0 ht
  have ho := runBody_outcome first_model rest sp rs df am engine fs0
  rw [← ht] at ho
  constructor
  · intro ⟨l, hl⟩
    by_contra hne
    push_neg at hne
    have : ∀ p ∈ t.refined_structure_list, t.fsAfter p = true := by
      intro p hp
      cases hfp : t.fsAfter p with
      | false => exact absurd hfp (hne p hp)
      | true => rfl
    obtain ⟨e, he⟩ := hok.mpr this
    rw [hl] at he
    cases he
  · intro ⟨p, hp, hfp⟩
    cases hout : t.outcome with
    | indexError =>
      exfalso
      rw [hout] at ho
      split at ho
      · cases ho
      · cases ho
    | missingError l => exact ⟨l, rfl⟩
    | ok e =>
      exfalso
      have := hok.mp ⟨e, hout⟩ p hp
      rw [this] at hfp
      cases hfp

theorem refined_base_inj_of_runBody (t : ModuleTrace) (first_model : PDBFileIn)
    (rest : List PDBFileIn) (sp rs df : String) (am : Option String)
    (engine : List CNSJob → FS → FS) (fs0 : FS)
    (ht : t = runBody first_model rest sp rs df am engine fs0) :
    ∀ p ∈ t.refined_structure_list, ∀ q ∈ t.refined_structure_list,
      p.base = q.base → p = q := by
  subst ht
  rw [runBody_refined]
  intro p hp q hq hbase
  obtain ⟨a, _, rfl⟩ := List.mem_map.mp hp
  obtain ⟨b, _, rfl⟩ := List.mem_map.mp hq
  have : a = b := flexref_name_inj "flexref_" ".pdb" a b hbase
  rw [this]

theorem flexref_inp_base_ne_io (x : String) :
    "flexref_" ++ x ++ ".inp" ≠ "io.json" := by
  intro h
  have hd := congrArg String.data h
  have key : ("flexref_" ++ x ++ ".inp").data =
      'f' :: ("lexref_".data ++ x.data ++ ".inp".data) := by
    simp [String.data_append]
  rw [key] at hd
  have hio : "io.json".data = 'i' :: "o.json".data := rfl
  rw [hio] at hd
  injection hd with h1 _
  cases h1

/-- C1: after the engine finishes, the run classifies each task purely by
file existence: the run is successful iff every pre-declared output
structure exists in the post-engine filesystem, a task's output name is in
the missing list iff its file is absent, and any engine producing the same
post-engine filesystem yields the identical outcome (no return value or
channel is consulted). -/
theorem flexref_classified_by_file_existence (prev_output : List PDBFileIn)
    (sp rs df : String) (am : Option String) (engine : List CNSJob → FS → FS)
    (fs0 : FS)
    (hne : prev_output.filter (fun p => p.file_type == Format.pdb) ≠ []) :
    ((∃ e, (HaddockModule.run prev_output sp rs df am engine fs0).outcome =
        RunOutcome.ok e) ↔
      ∀ p ∈ (HaddockModule.run prev_output sp rs df am engine fs0).refined_structure_list,
        (HaddockModule.run prev_output sp rs df am engine fs0).fsAfter p = true)
    ∧ (∀ p ∈ (HaddockModule.run prev_output sp rs df am engine fs0).refined_structure_list,
        (p.base ∈ notFoundOf (HaddockModule.run prev_output sp rs df am engine fs0) ↔
          (HaddockModule.run prev_output sp rs df am engine fs0).fsAfter p = false))
    ∧ (∀ engine₂ : List CNSJob → FS → FS,
        engine₂ (HaddockModule.run prev_output sp rs df am engine fs0).jobs
          (fun p => fs0 p ||
            ((HaddockModule.run prev_output sp rs df am engine fs0).jobs.map
              CNSJob.input_file).contains p) =
          (HaddockModule.run prev_output sp rs df am engine fs0).fsAfter →
        (HaddockModule.run prev_output sp rs df am engine₂ fs0).outcome =
          (HaddockModule.run prev_output sp rs df am engine fs0).outcome) := by
  cases hfil : prev_output.filter (fun p => p.file_type == Format.pdb) with
  | nil => exact absurd hfil hne
  | cons first_model rest =>
    have hrun : HaddockModule.run prev_output sp rs df am engine fs0 =
        runBody first_model rest sp rs df am engine fs0 := by
      simp only [HaddockModule.run, hfil]
    have hrun₂ : ∀ engine₂ : List CNSJob → FS → FS,
        HaddockModule.run prev_output sp rs df am engine₂ fs0 =
          runBody first_model rest sp rs df am engine₂ fs0 := by
      intro engine₂
      simp only [HaddockModule.run, hfil]
    refine ⟨ok_iff_of_runBody _ first_model rest sp rs df am engine fs0 hrun,
      ?_, ?_⟩
    · intro p hp
      rw [notFound_eq_of_runBody _ first_model rest sp rs df am engine fs0 hrun]
      constructor
      · intro hmem
        obtain ⟨q, hq, hbase⟩ := List.mem_map.mp hmem
        have hq' := List.mem_filter.mp hq
        have : q = p := refined_base_inj_of_runBody _ first_model rest sp rs df
          am engine fs0 hrun q hq'.1 p hp hbase
        rw [← this]
        simpa using hq'.2
      · intro habs
        apply List.mem_map.mpr
        refine ⟨p, List.mem_filter.mpr ⟨hp, ?_⟩, rfl⟩
        simp [habs]
    · intro engine₂ hsame
      rw [hrun₂ engine₂, hrun]
      rw [hrun] at hsame
      have hfs₂ : (runBody first_model rest sp rs df am engine₂ fs0).fsAfter =
          (runBody first_model rest sp rs df am engine fs0).fsAfter := by
        rw [runBody_fsAfter first_model rest sp rs df am engine₂ fs0]
        have hjobs : (runBody first_model rest sp rs df am engine₂ fs0).jobs =
            (runBody first_model rest sp rs df am engine fs0).jobs := by
          rw [runBody_jobs, runBody_jobs]
        rw [hjobs]
        exact hsame
      have hrefined : (runBody first_model rest sp rs df am engine₂ fs0).refined_structure_list =
          (runBody first_model rest sp rs df am engine fs0).refined_structure_list := by
        rw [runBody_refined, runBody_refined]
      rw [runBody_outcome first_model rest sp rs df am engine₂ fs0,
        runBody_outcome first_model rest sp rs df am engine fs0,
        hfs₂, hrefined]

/-- C1 witness: one-model batch, an engine creating every file; the
equivalences hold concretely. -/
theorem flexref_classified_by_file_existence_witness :
    ((∃ e, (HaddockModule.run [PDBFileIn.mk "prev" "m0.pdb" Format.pdb []]
        "step" "" "" none (fun _ _ => fun _ => true) (fun _ => false)).outcome =
        RunOutcome.ok e) ↔
      ∀ p ∈ (HaddockModule.run [PDBFileIn.mk "prev" "m0.pdb" Format.pdb []]
        "step" "" "" none (fun _ _ => fun _ => true) (fun _ => false)).refined_structure_list,
        (HaddockModule.run [PDBFileIn.mk "prev" "m0.pdb" Format.pdb []]
        "step" "" "" none (fun _ _ => fun _ => true) (fun _ => false)).fsAfter p = true) :=
  (flexref_classified_by_file_existence [PDBFileIn.mk "prev" "m0.pdb" Format.pdb []]
    "step" "" "" none (fun _ _ => fun _ => true) (fun _ => false) (by decide)).1

/-- C3: missing-output detection is post-hoc and aggregate.  The engine
receives the whole batch (one job per model); the `not_found` report is
computed in one pass over every expected path against the post-engine
filesystem, and a `missingError` arises exactly when some expected file is
absent — carrying all absent names together; no error interrupts the batch
mid-run. -/
theorem flexref_missing_detection_aggregate (prev_output : List PDBFileIn)
    (sp rs df : String) (am : Option String) (engine : List CNSJob → FS → FS)
    (fs0 : FS)
    (hne : prev_output.filter (fun p => p.file_type == Format.pdb) ≠ []) :
    (HaddockModule.run prev_output sp rs df am engine fs0).jobs.length =
      (prev_output.filter (fun p => p.file_type == Format.pdb)).length
    ∧ notFoundOf (HaddockModule.run prev_output sp rs df am engine fs0) =
      ((HaddockModule.run prev_output sp rs df am engine fs0).refined_structure_list.filter
        (fun p => !((HaddockModule.run prev_output sp rs df am engine fs0).fsAfter p))).map
          FsPath.base
    ∧ ((∃ l, (HaddockModule.run prev_output sp rs df am engine fs0).outcome =
        RunOutcome.missingError l) ↔
      ∃ p ∈ (HaddockModule.run prev_output sp rs df am engine fs0).refined_structure_list,
        (HaddockModule.run prev_output sp rs df am engine fs0).fsAfter p = false) := by
  cases hfil : prev_output.filter (fun p => p.file_type == Format.pdb) with
  | nil => exact absurd hfil hne
  | cons first_model rest =>
    have hrun : HaddockModule.run prev_output sp rs df am engine fs0 =
        runBody first_model rest sp rs df am engine fs0 := by
      simp only [HaddockModule.run, hfil]
    refine ⟨?_, notFound_eq_of_runBody _ first_model rest sp rs df am engine fs0 hrun,
      missing_iff_of_runBody _ first_model rest sp rs df am engine fs0 hrun⟩
    rw [hrun, runBody_jobs]
    simp

/-- C3 witness: two models, an engine creating nothing; the report lists
both missing names in the aggregate. -/
theorem flexref_missing_detection_aggregate_witness :
    notFoundOf (HaddockModule.run [PDBFileIn.mk "prev" "m0.pdb" Format.pdb [],
        PDBFileIn.mk "prev" "m1.pdb" Format.pdb []] "step" "" "" none
        (fun _ fs => fs) (fun _ => false)) =
      ((HaddockModule.run [PDBFileIn.mk "prev" "m0.pdb" Format.pdb [],
        PDBFileIn.mk "prev" "m1.pdb" Format.pdb []] "step" "" "" none
        (fun _ fs => fs) (fun _ => false)).refined_structure_list.filter
        (fun p => !((HaddockModule.run [PDBFileIn.mk "prev" "m0.pdb" Format.pdb [],
          PDBFileIn.mk "prev" "m1.pdb" Format.pdb []] "step" "" "" none
          (fun _ fs => fs) (fun _ => false)).fsAfter p))).map FsPath.base :=
  (flexref_missing_detection_aggregate [PDBFileIn.mk "prev" "m0.pdb" Format.pdb [],
    PDBFileIn.mk "prev" "m1.pdb" Format.pdb []] "step" "" "" none
    (fun _ fs => fs) (fun _ => false) (by decide)).2.1

/-- C9: the module record `io.json` is written if and only if every
expected output structure exists after the engine run, and equivalently
iff the run ends in success; on the `finish_with_error` path no record is
saved. -/
theorem flexref_io_record_iff_outputs (prev_output : List PDBFileIn)
    (sp rs df : String) (am : Option String) (engine : List CNSJob → FS → FS)
    (fs0 : FS)
    (hne : prev_output.filter (fun p => p.file_type == Format.pdb) ≠ []) :
    ((FsPath.mk sp "io.json") ∈
        (HaddockModule.run prev_output sp rs df am engine fs0).writes ↔
      ∀ p ∈ (HaddockModule.run prev_output sp rs df am engine fs0).refined_structure_list,
        (HaddockModule.run prev_output sp rs df am engine fs0).fsAfter p = true)
    ∧ ((∃ e, (HaddockModule.run prev_output sp rs df am engine fs0).outcome =
        RunOutcome.ok e) ↔
      (FsPath.mk sp "io.json") ∈
        (HaddockModule.run prev_output sp rs df am engine fs0).writes) := by
  cases hfil : prev_output.filter (fun p => p.file_type == Format.pdb) with
  | nil => exact absurd hfil hne
  | cons first_model rest =>
    have hrun : HaddockModule.run prev_output sp rs df am engine fs0 =
        runBody first_model rest sp rs df am engine fs0 := by
      simp only [HaddockModule.run, hfil]
    have hok := ok_iff_of_runBody _ first_model rest sp rs df am engine fs0 hrun
    have hnotmem : (FsPath.mk sp "io.json") ∉
        ((runBody first_model rest sp rs df am engine fs0).jobs.map CNSJob.input_file) := by
      rw [runBody_inpWrites]
      intro hmem
      obtain ⟨a, _, ha⟩ := List.mem_map.mp hmem
      have hbase : "flexref_" ++ natStr a ++ ".inp" = "io.json" :=
        congrArg FsPath.base ha
      exact flexref_inp_base_ne_io (natStr a) hbase
    have hwio : (FsPath.mk sp "io.json") ∈
        (HaddockModule.run prev_output sp rs df am engine fs0).writes ↔
        (∃ e, (HaddockModule.run prev_output sp rs df am engine fs0).outcome =
          RunOutcome.ok e) := by
      rw [hrun]
      rw [runBody_writes first_model rest sp rs df am engine fs0,
        runBody_outcome first_model rest sp rs df am engine fs0]
      cases hc : (((runBody first_model rest sp rs df am engine fs0).refined_structure_list.filter
          (fun m => !((runBody first_model rest sp rs df am engine fs0).fsAfter m))).map
            FsPath.base).isEmpty with
      | false =>
        simp only [if_neg Bool.false_ne_true]
        constructor
        · intro hmem
          exact absurd hmem hnotmem
        · intro ⟨e, he⟩
          cases he
      | true =>
        simp only [if_pos rfl]
        constructor
        · intro _
          exact ⟨_, rfl⟩
        · intro _
          exact List.mem_append.mpr (Or.inr (List.mem_singleton_self _))
    exact ⟨hwio.trans hok, hwio.symm⟩

/-- C9 witness: one model, an engine creating every file; `io.json` is
written and the run succeeds. -/
theorem flexref_io_record_iff_outputs_witness :
    (∃ e, (HaddockModule.run [PDBFileIn.mk "prev" "m0.pdb" Format.pdb []]
        "step" "" "" none (fun _ _ => fun _ => true) (fun _ => false)).outcome =
        RunOutcome.ok e) ↔
      (FsPath.mk "step" "io.json") ∈
        (HaddockModule.run [PDBFileIn.mk "prev" "m0.pdb" Format.pdb []]
        "step" "" "" none (fun _ _ => fun _ => true) (fun _ => false)).writes :=
  (flexref_io_record_iff_outputs [PDBFileIn.mk "prev" "m0.pdb" Format.pdb []]
    "step" "" "" none (fun _ _ => fun _ => true) (fun _ => false) (by decide)).2

/-- C2 counterexample: a batch in which task 0 produces its output and
task 1 does not.  The run does not return a task-id→result mapping: it
aborts through `finish_with_error` with the missing name, and no `ok`
result reaches the caller — refuting the claim that the engine returns a
complete mapping normally on partial failure. -/
theorem flexref_partial_failure_no_mapping_cex :
    (HaddockModule.run demoPrev "step" "" "" none demoEnginePartial
      (fun _ => false)).outcome = RunOutcome.missingError ["flexref_1.pdb"]
    ∧ ∀ e, (HaddockModule.run demoPrev "step" "" "" none demoEnginePartial
      (fun _ => false)).outcome ≠ RunOutcome.ok e := by
  have h : (HaddockModule.run demoPrev "step" "" "" none demoEnginePartial
      (fun _ => false)).outcome = RunOutcome.missingError ["flexref_1.pdb"] := by
    decide
  exact ⟨h, fun e he => by rw [h] at he; cases he⟩

/-- C2 (amended): on a partial failure the module does not hand the caller
any mapping: it aggregates every missing output name and terminates
through `finish_with_error`; only when every declared output exists does
the caller receive the complete expected-output record covering every
task. -/
theorem flexref_partial_failure_aborts (prev_output : List PDBFileIn)
    (sp rs df : String) (am : Option String) (engine : List CNSJob → FS → FS)
    (fs0 : FS)
    (hne : prev_output.filter (fun p => p.file_type == Format.pdb) ≠ []) :
    ((∃ p ∈ (HaddockModule.run prev_output sp rs df am engine fs0).refined_structure_list,
        (HaddockModule.run prev_output sp rs df am engine fs0).fsAfter p = false) →
      ((HaddockModule.run prev_output sp rs df am engine fs0).outcome =
          RunOutcome.missingError
            (((HaddockModule.run prev_output sp rs df am engine fs0).refined_structure_list.filter
              (fun p => !((HaddockModule.run prev_output sp rs df am engine fs0).fsAfter p))).map
                FsPath.base)
        ∧ ∀ e, (HaddockModule.run prev_output sp rs df am engine fs0).outcome ≠
            RunOutcome.ok e))
    ∧ ((∀ p ∈ (HaddockModule.run prev_output sp rs df am engine fs0).refined_structure_list,
        (HaddockModule.run prev_output sp rs df am engine fs0).fsAfter p = true) →
      ∃ e, (HaddockModule.run prev_output sp rs df am engine fs0).outcome =
          RunOutcome.ok e
        ∧ e.map PDBFileOut.file =
          (HaddockModule.run prev_output sp rs df am engine fs0).refined_structure_list) := by
  cases hfil : prev_output.filter (fun p => p.file_type == Format.pdb) with
  | nil => exact absurd hfil hne
  | cons first_model rest =>
    have hrun : HaddockModule.run prev_output sp rs df am engine fs0 =
        runBody first_model rest sp rs df am engine fs0 := by
      simp only [HaddockModule.run, hfil]
    have ho := runBody_outcome first_model rest sp rs df am engine fs0
    rw [← hrun] at ho
    constructor
    · intro ⟨p, hp, hfp⟩
      have hc : (((HaddockModule.run prev_output sp rs df am engine fs0).refined_structure_list.filter
          (fun m => !((HaddockModule.run prev_output sp rs df am engine fs0).fsAfter m))).map
            FsPath.base).isEmpty = false := by
        cases hc' : (((HaddockModule.run prev_output sp rs df am engine fs0).refined_structure_list.filter
            (fun m => !((HaddockModule.run prev_output sp rs df am engine fs0).fsAfter m))).map
              FsPath.base).isEmpty with
        | false => rfl
        | true =>
          exfalso
          have hnil := List.isEmpty_iff.mp hc'
          rw [List.map_eq_nil_iff, List.filter_eq_nil_iff] at hnil
          have := hnil p hp
          rw [hfp] at this
          simp at this
      rw [hc] at ho
      simp only [if_neg Bool.false_ne_true] at ho
      exact ⟨ho, fun e he => by rw [ho] at he; cases he⟩
    · intro hall
      have hc : (((HaddockModule.run prev_output sp rs df am engine fs0).refined_structure_list.filter
          (fun m => !((HaddockModule.run prev_output sp rs df am engine fs0).fsAfter m))).map
            FsPath.base).isEmpty = true := by
        rw [List.isEmpty_iff, List.map_eq_nil_iff, List.filter_eq_nil_iff]
        intro p hp
        simp [hall p hp]
      rw [hc] at ho
      simp only [if_pos rfl] at ho
      refine ⟨_, ho, ?_⟩
      rw [List.map_map]
      exact List.map_id'' (fun _ => rfl) _

/-- C2 (amended) witness: the partial-failure batch aborts with the
aggregated missing list and never yields an `ok` result. -/
theorem flexref_partial_failure_aborts_witness :
    (HaddockModule.run demoPrev "step" "" "" none demoEnginePartial
        (fun _ => false)).outcome =
      RunOutcome.missingError
        (((HaddockModule.run demoPrev "step" "" "" none demoEnginePartial
            (fun _ => false)).refined_structure_list.filter
          (fun p => !((HaddockModule.run demoPrev "step" "" "" none demoEnginePartial
            (fun _ => false)).fsAfter p))).map FsPath.base)
    ∧ ∀ e, (HaddockModule.run demoPrev "step" "" "" none demoEnginePartial
        (fun _ => false)).outcome ≠ RunOutcome.ok e :=
  (flexref_partial_failure_aborts demoPrev "step" "" "" none demoEnginePartial
    (fun _ => false) (by decide)).1
    ⟨flexrefPdb "step" 1, by decide, by decide⟩

theorem flat_yaml_error_iff (cfg : List (String × YVal)) :
    (∃ e, flat_yaml_cfg cfg = .error e) ↔ hasBadParam cfg = true := by
  induction cfg using flat_yaml_cfg.induct with
  | case1 => simp [flat_yaml_cfg, hasBadParam]
  | case2 param m rest d hld hhk out hok ih =>
    simp only [flat_yaml_cfg, hld, hhk, hasBadParam, if_true]
    simp [hok, ← ih]
  | case3 param m rest d hld hhk e herr ih =>
    simp only [flat_yaml_cfg, hld, hhk, hasBadParam, if_true]
    simp [herr, ← ih]
  | case4 param m rest d hld hhk =>
    have hhk' : yhasKey "explevel" m = false := by
      cases hy : yhasKey "explevel" m with
      | false => rfl
      | true => exact absurd hy hhk
    simp only [flat_yaml_cfg, hld, hasBadParam, hhk']
    simp
  | case5 param m rest hld out1 hok1 out2 hok2 ihm ihrest =>
    simp only [flat_yaml_cfg, hld, hasBadParam]
    simp [hok1, hok2, ← ihm, ← ihrest]
  | case6 param m rest hld out hok e herr ihm ihrest =>
    simp only [flat_yaml_cfg, hld, hasBadParam]
    simp [hok, herr, ← ihm, ← ihrest]
  | case7 param m rest hld e herr ihm =>
    simp only [flat_yaml_cfg, hld, hasBadParam]
    simp [herr, ← ihm]
  | case8 fst snd rest hnd ih =>
    cases snd with
    | dict m => exact (hnd m rfl).elim
    | str s => simpa [flat_yaml_cfg, hasBadParam] using ih
    | boolean b => simpa [flat_yaml_cfg, hasBadParam] using ih
    | num i => simpa [flat_yaml_cfg, hasBadParam] using ih
    | arr l => simpa [flat_yaml_cfg, hasBadParam] using ih

/-- C10: `flat_yaml_cfg` maps each parameter whose mapping carries a
`"default"` key to that default, recurses into nested mappings lacking
`"default"`, skips non-mapping values, and raises `ConfigurationError`
exactly when a visited parameter's mapping has `"default"` but no
`"explevel"` key. -/
theorem flat_yaml_cfg_spec :
    (∀ cfg, (∃ e, flat_yaml_cfg cfg = Except.error e) ↔ hasBadParam cfg = true)
    ∧ (∀ param m d rest, ylookup "default" m = some d →
        yhasKey "explevel" m = true →
        flat_yaml_cfg ((param, YVal.dict m) :: rest) =
          match flat_yaml_cfg rest with
          | .ok out => .ok ((param, d) :: out)
          | .error e => .error e)
    ∧ (∀ param m rest, ylookup "default" m = none →
        flat_yaml_cfg ((param, YVal.dict m) :: rest) =
          match flat_yaml_cfg m with
          | .ok sub =>
            (match flat_yaml_cfg rest with
             | .ok out => .ok ((param, YVal.dict sub) :: out)
             | .error e => .error e)
          | .error e => .error e)
    ∧ (∀ param v rest, v.isDict = false →
        flat_yaml_cfg ((param, v) :: rest) = flat_yaml_cfg rest)
    ∧ (∀ param m rest d, ylookup "default" m = some d →
        yhasKey "explevel" m = false →
        flat_yaml_cfg ((param, YVal.dict m) :: rest) =
          Except.error ("explevel not defined for: " ++ param)) := by
  refine ⟨flat_yaml_error_iff, ?_, ?_, ?_, ?_⟩
  · intro param m d rest hld hhk
    simp [flat_yaml_cfg, hld, hhk]
  · intro param m rest hld
    simp [flat_yaml_cfg, hld]
  · intro param v rest hv
    cases v with
    | dict m => simp [YVal.isDict] at hv
    | str s => simp [flat_yaml_cfg]
    | boolean b => simp [flat_yaml_cfg]
    | num i => simp [flat_yaml_cfg]
    | arr l => simp [flat_yaml_cfg]
  · intro param m rest d hld hhk
    simp [flat_yaml_cfg, hld, hhk]

/-- C10 witness: a defaulted parameter with `explevel` flattens to its
default; a defaulted parameter without `explevel` errors. -/
theorem flat_yaml_cfg_spec_witness :
    flat_yaml_cfg [("w", YVal.dict
        [("default", YVal.num 1), ("explevel", YVal.str "easy")])] =
      (match flat_yaml_cfg ([] : List (String × YVal)) with
        | .ok out => .ok (("w", YVal.num 1) :: out)
        | .error e => .error e)
    ∧ flat_yaml_cfg [("b", YVal.dict [("default", YVal.num 1)])] =
      Except.error ("explevel not defined for: " ++ "b") :=
  ⟨flat_yaml_cfg_spec.2.1 "w"
      [("default", YVal.num 1), ("explevel", YVal.str "easy")] (YVal.num 1) []
      (by simp [ylookup]) (by simp [yhasKey, ylookup]),
    flat_yaml_cfg_spec.2.2.2.2 "b" [("default", YVal.num 1)] [] (YVal.num 1)
      (by simp [ylookup]) (by simp [yhasKey, ylookup])⟩

theorem mem_workerSlice (rank world n i : Nat) :
    i ∈ workerSlice rank world n ↔ i < n ∧ i % world = rank := by
  simp [workerSlice, List.mem_filter, List.mem_range]

/-- C5: the rank partitioning is a deterministic pure function of
(rank, world_size, batch_length); for `0 < W ≤ n` the slices of ranks
`0..W-1` cover the index range `0..n-1`, are pairwise disjoint, and the
concrete scenario `W = 3`, `n = 7` yields `{0,3,6}`, `{1,4}`, `{2,5}`. -/
theorem workerSlice_partition (W n : Nat) (hW : 0 < W) (hWn : W ≤ n) :
    (∀ i, i < n ↔ ∃ r, r < W ∧ i ∈ workerSlice r W n)
    ∧ (∀ r₁ r₂ i, i ∈ workerSlice r₁ W n → i ∈ workerSlice r₂ W n → r₁ = r₂)
    ∧ (workerSlice 0 3 7 = [0, 3, 6] ∧ workerSlice 1 3 7 = [1, 4]
        ∧ workerSlice 2 3 7 = [2, 5]) := by
  refine ⟨?_, ?_, by decide, by decide, by decide⟩
  · intro i
    constructor
    · intro hin
      exact ⟨i % W, Nat.mod_lt i hW, (mem_workerSlice _ W n i).mpr ⟨hin, rfl⟩⟩
    · intro ⟨r, _, hmem⟩
      exact ((mem_workerSlice r W n i).mp hmem).1
  · intro r₁ r₂ i h₁ h₂
    have e₁ := ((mem_workerSlice r₁ W n i).mp h₁).2
    have e₂ := ((mem_workerSlice r₂ W n i).mp h₂).2
    rw [← e₁, ← e₂]

/-- C5 witness: the scenario `W = 3`, `n = 7` concretely. -/
theorem workerSlice_partition_witness :
    workerSlice 0 3 7 = [0, 3, 6] ∧ workerSlice 1 3 7 = [1, 4]
      ∧ workerSlice 2 3 7 = [2, 5] :=
  (workerSlice_partition 3 7 (by decide) (by decide)).2.2

theorem decodeString_encode (s : String) (r : List Nat) :
    decodeString (encodeString s ++ r) = some (s, r) := by
  have hlen : (s.data.map Char.toNat).length = s.length := by
    rw [List.length_map]
    cases s
    rfl
  simp only [encodeString, List.cons_append, decodeString]
  rw [if_pos (by simp [hlen])]
  rw [← hlen, List.take_left, List.drop_left]
  have hmap : (s.data.map Char.toNat).map Char.ofNat = s.data := by
    rw [List.map_map]
    have : (Char.ofNat ∘ Char.toNat) = id := funext fun c => Char.ofNat_toNat c
    rw [this, List.map_id]
  rw [hmap]

theorem decodeTask_encode (t : MpiTask) (r : List Nat) :
    decodeTask (encodeTask t ++ r) = some (t, r) := by
  simp only [encodeTask, List.append_assoc, decodeTask, decodeString_encode]

theorem decodeTasksAux_encode (ts : List MpiTask) (r : List Nat) :
    decodeTasksAux ts.length (ts.foldr (fun t acc => encodeTask t ++ acc) r) =
      some ts := by
  induction ts generalizing r with
  | nil => rfl
  | cons t ts ih =>
    simp only [List.foldr_cons, List.length_cons, decodeTasksAux,
      decodeTask_encode, ih]

theorem decodeTasks_serialize (ts : List MpiTask) :
    decodeTasks (serializeTasks ts) = some ts := by
  simp only [serializeTasks, decodeTasks]
  exact decodeTasksAux_encode ts []

/-- C6: before any worker is launched the scheduler serializes the whole
batch into exactly one record file at the deterministic path
`cwd / mpi.pkl`: after `pickle_tasks` that path holds the serialized
batch, the record is non-empty, no other path changes, and the launch in
`MPIScheduler.run` starts from the post-serialization store. -/
theorem mpi_pickle_single_record (s : MPIScheduler) (fs : FileStore)
    (h : s.tasks ≠ []) :
    (s.pickle_tasks fs) ⟨s.cwd, "mpi.pkl"⟩ = some (serializeTasks s.tasks)
    ∧ 0 < (serializeTasks s.tasks).length
    ∧ (∀ q, q ≠ (FsPath.mk s.cwd "mpi.pkl") → (s.pickle_tasks fs) q = fs q)
    ∧ s.run fs = (List.range s.ncores).foldl
        (fun f r => cli_mpi_main ⟨s.cwd, "mpi.pkl"⟩ r s.ncores f)
        (s.pickle_tasks fs) := by
  refine ⟨?_, ?_, ?_, rfl⟩
  · simp [MPIScheduler.pickle_tasks]
  · simp [serializeTasks]
  · intro q hq
    simp [MPIScheduler.pickle_tasks, hq]

/-- C6 witness: a one-task scheduler over an empty store. -/
theorem mpi_pickle_single_record_witness :
    ((MPIScheduler.mk [MpiTask.mk ⟨"d", "o1"⟩] 1 "wd").pickle_tasks
        (fun _ => none)) ⟨"wd", "mpi.pkl"⟩ =
      some (serializeTasks [MpiTask.mk ⟨"d", "o1"⟩])
    ∧ 0 < (serializeTasks [MpiTask.mk ⟨"d", "o1"⟩]).length :=
  ⟨(mpi_pickle_single_record (MPIScheduler.mk [MpiTask.mk ⟨"d", "o1"⟩] 1 "wd")
      (fun _ => none) (by decide)).1,
    (mpi_pickle_single_record (MPIScheduler.mk [MpiTask.mk ⟨"d", "o1"⟩] 1 "wd")
      (fun _ => none) (by decide)).2.1⟩

theorem MpiTask.run_preserves (t : MpiTask) (fs : FileStore) (p : FsPath)
    (h : (fs p).isSome = true) : ((t.run fs) p).isSome = true := by
  by_cases hp : p = t.output_fname <;> simp [MpiTask.run, hp, h]

theorem foldl_run_preserves (ts : List MpiTask) (l : List Nat)
    (fs : FileStore) (p : FsPath) (h : (fs p).isSome = true) :
    ((l.foldl (fun f i =>
        match ts[i]? with
        | some t => t.run f
        | none => f) fs) p).isSome = true := by
  induction l generalizing fs with
  | nil => exact h
  | cons i l ih =>
    simp only [List.foldl_cons]
    apply ih
    cases hti : ts[i]? with
    | none => simpa [hti] using h
    | some t => exact MpiTask.run_preserves t fs p h

theorem foldl_run_touches (ts : List MpiTask) (l : List Nat)
    (fs : FileStore) (i : Nat) (hi : i ∈ l) (t : MpiTask)
    (ht : ts[i]? = some t) :
    ((l.foldl (fun f j =>
        match ts[j]? with
        | some u => u.run f
        | none => f) fs) t.output_fname).isSome = true := by
  induction l generalizing fs with
  | nil => cases hi
  | cons j l ih =>
    simp only [List.foldl_cons]
    rcases List.mem_cons.mp hi with rfl | hmem
    · apply foldl_run_preserves
      rw [ht]
      simp [MpiTask.run]
    · exact ih _ hmem

/-- C7: the worker entry point gets only the path of the serialized batch
record; when the store holds the record there, then after the worker
returns, the declared output file of every task in its slice exists — the
only observable result is the filesystem, not a return value. -/
theorem cli_mpi_main_outputs (record : FsPath) (rank world : Nat)
    (fs : FileStore) (ts : List MpiTask)
    (h : fs record = some (serializeTasks ts)) :
    ∀ i ∈ workerSlice rank world ts.length, ∀ t, ts[i]? = some t →
      ((cli_mpi_main record rank world fs) t.output_fname).isSome = true := by
  intro i hi t ht
  simp only [cli_mpi_main, h, decodeTasks_serialize]
  exact foldl_run_touches ts _ fs i hi t ht

/-- C7 witness: a single assigned task's output exists after the worker
runs over a store holding the record. -/
theorem cli_mpi_main_outputs_witness :
    ((cli_mpi_main ⟨"wd", "mpi.pkl"⟩ 0 1
        (fun p => if p = ⟨"wd", "mpi.pkl"⟩
          then some (serializeTasks [MpiTask.mk ⟨"d", "o1"⟩]) else none))
      (FsPath.mk "d" "o1")).isSome = true :=
  cli_mpi_main_outputs ⟨"wd", "mpi.pkl"⟩ 0 1
    (fun p => if p = ⟨"wd", "mpi.pkl"⟩
      then some (serializeTasks [MpiTask.mk ⟨"d", "o1"⟩]) else none)
    [MpiTask.mk ⟨"d", "o1"⟩] (by simp) 0 (by decide)
    (MpiTask.mk ⟨"d", "o1"⟩) rfl
